import Mathlib

/-!
Schema export of `build/schema-loader.go`

A shallow embedding of the Go program that copies the provider's resource schema
into a function-free object graph, serialises it to JSON and lists the
resource-type names.

* Go pointers (`*schema.Schema`, `*schema.Resource`) are `Option`: `none` is the
  nil pointer, and dereferencing it is the run-time panic `Panic.nilDereference`.
* A Go `interface{}` holding a schema element is `Iface`: the nil interface, a
  `*schema.Resource`, a `*schema.Schema`, or a value of any other dynamic type.
* A Go `map[string]T` is the list of its entries in the order one `range` loop
  visits them; `mapSet` is the assignment `m[k] = v`.  A list stands for a map
  when its keys are pairwise distinct (`Iface.wf`, `List.Nodup`).
* The schema graph is an inductive tree, hence finite and acyclic.
-/

namespace SchemaLoader

/-! ## Data model -/

/-- Dynamic Go values stored behind an `interface{}` (`Default`, or an element of
an unrecognised kind): booleans, integers, strings, and function values, the
latter standing for the kinds `encoding/json` refuses to encode. -/
inductive GoValue
  | bool (b : Bool)
  | int (n : Int)
  | str (s : String)
  | func (name : String)
  deriving DecidableEq, Repr

/-- Run-time panics of the program. -/
inductive Panic
  | nilDereference
  | indexOutOfRange
  | message (msg : String)
  | error (err : String)
  deriving DecidableEq, Repr

mutual
/-- The fields of `schema.Schema` that the program reads (lines 57-64). -/
inductive Schema
  | mk (Type_ ConfigMode : Int) (Optional Required : Bool) (Default : Option GoValue)
      (InputDefault : String) (Computed : Bool) (Elem : Iface)
/-- The `interface{}` stored in `schema.Schema.Elem`, by dynamic type. -/
inductive Iface
  | nil
  | resource (p : Option Resource)
  | schema (p : Option Schema)
  | other (v : GoValue)
/-- The field of `schema.Resource` that the program reads: `Schema`, a
`map[string]*schema.Schema`. -/
inductive Resource
  | mk (Schema : List (String × Option Schema))
end

mutual
/-- Go struct `SimpleSchema` (lines 29-38). -/
inductive SimpleSchema
  | mk (Type_ ConfigMode : Int) (Optional Required : Bool) (Default : Option GoValue)
      (InputDefault : String) (Computed : Bool) (Elem : SimpleIface)
/-- The `interface{}` stored in `SimpleSchema.Elem`: `recurseSchema` returns the nil
interface, a `*SimpleResource` or a `*SimpleSchema`, the pointers coming from
`&SimpleResource` and `&SimpleSchema` literals and therefore never nil. -/
inductive SimpleIface
  | nil
  | resource (r : SimpleResource)
  | schema (s : SimpleSchema)
/-- Go struct `SimpleResource` (lines 24-26); its map holds the pointers returned
by `copySchema`, which are never nil. -/
inductive SimpleResource
  | mk (Schema : List (String × SimpleSchema))
end

def Schema.Type_ : Schema → Int
  | .mk t _ _ _ _ _ _ _ => t

def Schema.ConfigMode : Schema → Int
  | .mk _ c _ _ _ _ _ _ => c

def Schema.Optional : Schema → Bool
  | .mk _ _ o _ _ _ _ _ => o

def Schema.Required : Schema → Bool
  | .mk _ _ _ r _ _ _ _ => r

def Schema.Default : Schema → Option GoValue
  | .mk _ _ _ _ d _ _ _ => d

def Schema.InputDefault : Schema → String
  | .mk _ _ _ _ _ i _ _ => i

def Schema.Computed : Schema → Bool
  | .mk _ _ _ _ _ _ c _ => c

def Schema.Elem : Schema → Iface
  | .mk _ _ _ _ _ _ _ e => e

def Resource.Schema : Resource → List (String × Option Schema)
  | .mk m => m

def SimpleSchema.Type_ : SimpleSchema → Int
  | .mk t _ _ _ _ _ _ _ => t

def SimpleSchema.ConfigMode : SimpleSchema → Int
  | .mk _ c _ _ _ _ _ _ => c

def SimpleSchema.Optional : SimpleSchema → Bool
  | .mk _ _ o _ _ _ _ _ => o

def SimpleSchema.Required : SimpleSchema → Bool
  | .mk _ _ _ r _ _ _ _ => r

def SimpleSchema.Default : SimpleSchema → Option GoValue
  | .mk _ _ _ _ d _ _ _ => d

def SimpleSchema.InputDefault : SimpleSchema → String
  | .mk _ _ _ _ _ i _ _ => i

def SimpleSchema.Computed : SimpleSchema → Bool
  | .mk _ _ _ _ _ _ c _ => c

def SimpleSchema.Elem : SimpleSchema → SimpleIface
  | .mk _ _ _ _ _ _ _ e => e

def SimpleResource.Schema : SimpleResource → List (String × SimpleSchema)
  | .mk m => m

/-! ## Go maps -/

/-- The keys of a map, in iteration order. -/
def keys {α : Type} (m : List (String × α)) : List String :=
  m.map Prod.fst

/-- The assignment `m[k] = v`: an existing entry for `k` is overwritten in place, a
new key gets a new entry. -/
def mapSet {α : Type} : List (String × α) → String → α → List (String × α)
  | [], k, v => [(k, v)]
  | (k', v') :: rest, k, v =>
    if k' = k then (k, v) :: rest else (k', v') :: mapSet rest k v

/-- The lookup `m[k]` (comma-ok form). -/
def mapGet {α : Type} : List (String × α) → String → Option α
  | [], _ => none
  | (k', v') :: rest, k => if k' = k then some v' else mapGet rest k

/-! ## The copy (lines 40-78) -/

mutual
/-- Go `recurseSchema` (lines 40-52): a type switch on the dynamic type of `elem`. -/
def recurseSchema : Iface → Except Panic SimpleIface
  | .resource v => (copyResource v).map SimpleIface.resource
  | .schema v => (copySchema v).map SimpleIface.schema
  | .nil => .ok .nil
  | .other _ => .ok .nil
/-- Go `copySchema` (lines 54-66); reading a field of a nil `s` panics. -/
def copySchema : Option Schema → Except Panic SimpleSchema
  | none => .error .nilDereference
  | some (.mk t c o r d i cp e) =>
    (recurseSchema e).map (fun e' => SimpleSchema.mk t c o r d i cp e')
/-- Go `copyResource` (lines 68-78); reading `r.Schema` of a nil `r` panics. -/
def copyResource : Option Resource → Except Panic SimpleResource
  | none => .error .nilDereference
  | some (.mk m) => (copyFields m []).map SimpleResource.mk
/-- The loop `for k, s := range r.Schema { rs[k] = copySchema(s) }` (lines 71-73),
from the entries still to visit and the map `rs` built so far. -/
def copyFields : List (String × Option Schema) → List (String × SimpleSchema) →
    Except Panic (List (String × SimpleSchema))
  | [], rs => .ok rs
  | (k, s) :: rest, rs =>
    match copySchema s with
    | .error p => .error p
    | .ok s' => copyFields rest (mapSet rs k s')
end

/-! ## Predicates and skeletons of schema trees -/

mutual
/-- No nil pointer is reachable: every `*schema.Resource` and `*schema.Schema` in
the tree points to a value. -/
def Iface.nullFree : Iface → Bool
  | .nil => true
  | .other _ => true
  | .resource p => resourcePtrNullFree p
  | .schema p => schemaPtrNullFree p
def schemaPtrNullFree : Option Schema → Bool
  | none => false
  | some (.mk _ _ _ _ _ _ _ e) => Iface.nullFree e
def resourcePtrNullFree : Option Resource → Bool
  | none => false
  | some (.mk m) => fieldsNullFree m
def fieldsNullFree : List (String × Option Schema) → Bool
  | [] => true
  | (_, s) :: rest => schemaPtrNullFree s && fieldsNullFree rest
end

mutual
/-- Every field mapping of the tree is a Go map: its keys are pairwise distinct. -/
def Iface.wf : Iface → Bool
  | .nil => true
  | .other _ => true
  | .resource p => resourcePtrWf p
  | .schema p => schemaPtrWf p
def schemaPtrWf : Option Schema → Bool
  | none => true
  | some (.mk _ _ _ _ _ _ _ e) => Iface.wf e
def resourcePtrWf : Option Resource → Bool
  | none => true
  | some (.mk m) => decide (keys m).Nodup && fieldsWf m
def fieldsWf : List (String × Option Schema) → Bool
  | [] => true
  | (_, s) :: rest => schemaPtrWf s && fieldsWf rest
end

/-- The field names of a schema tree, level by level. -/
inductive KeyTree
  | leaf
  | elem (t : KeyTree)
  | fields (fs : List (String × KeyTree))

mutual
/-- The field names of a source tree at every nesting level: a resource lists its
field names, each with the names found below that field's `Elem`. -/
def Iface.keyTree : Iface → KeyTree
  | .nil => .leaf
  | .other _ => .leaf
  | .resource p => resourcePtrKeyTree p
  | .schema p => .elem (schemaPtrKeyTree p)
def schemaPtrKeyTree : Option Schema → KeyTree
  | none => .leaf
  | some (.mk _ _ _ _ _ _ _ e) => Iface.keyTree e
def resourcePtrKeyTree : Option Resource → KeyTree
  | none => .leaf
  | some (.mk m) => .fields (fieldsKeyTree m)
def fieldsKeyTree : List (String × Option Schema) → List (String × KeyTree)
  | [] => []
  | (k, s) :: rest => (k, schemaPtrKeyTree s) :: fieldsKeyTree rest
end

mutual
/-- The field names of a simplified tree at every nesting level. -/
def SimpleIface.keyTree : SimpleIface → KeyTree
  | .nil => .leaf
  | .resource r => SimpleResource.keyTree r
  | .schema s => .elem (SimpleSchema.keyTree s)
def SimpleSchema.keyTree : SimpleSchema → KeyTree
  | .mk _ _ _ _ _ _ _ e => SimpleIface.keyTree e
def SimpleResource.keyTree : SimpleResource → KeyTree
  | .mk m => .fields (simpleFieldsKeyTree m)
def simpleFieldsKeyTree : List (String × SimpleSchema) → List (String × KeyTree)
  | [] => []
  | (k, s) :: rest => (k, SimpleSchema.keyTree s) :: simpleFieldsKeyTree rest
end

/-- The kind of every node of a schema tree, without names and attributes. -/
inductive Shape
  | absent
  | unrecognized
  | schema (elem : Shape)
  | resource (fields : List Shape)

mutual
/-- The shape of a source tree: a resource has one branch per field, a field schema
branches to its `Elem`. -/
def Iface.shape : Iface → Shape
  | .nil => .absent
  | .other _ => .unrecognized
  | .resource p => .resource (resourcePtrShape p)
  | .schema p => .schema (schemaPtrShape p)
def schemaPtrShape : Option Schema → Shape
  | none => .absent
  | some (.mk _ _ _ _ _ _ _ e) => Iface.shape e
def resourcePtrShape : Option Resource → List Shape
  | none => []
  | some (.mk m) => fieldsShape m
def fieldsShape : List (String × Option Schema) → List Shape
  | [] => []
  | (_, s) :: rest => schemaPtrShape s :: fieldsShape rest
end

mutual
/-- The shape of a simplified tree. -/
def SimpleIface.shape : SimpleIface → Shape
  | .nil => .absent
  | .resource r => .resource (SimpleResource.shape r)
  | .schema s => .schema (SimpleSchema.shape s)
def SimpleSchema.shape : SimpleSchema → Shape
  | .mk _ _ _ _ _ _ _ e => SimpleIface.shape e
def SimpleResource.shape : SimpleResource → List Shape
  | .mk m => simpleFieldsShape m
def simpleFieldsShape : List (String × SimpleSchema) → List Shape
  | [] => []
  | (_, s) :: rest => SimpleSchema.shape s :: simpleFieldsShape rest
end

mutual
/-- Nesting depth: the longest chain of element references below a node. -/
def Shape.depth : Shape → Nat
  | .absent => 0
  | .unrecognized => 0
  | .schema e => Shape.depth e + 1
  | .resource fs => Shape.depthList fs + 1
def Shape.depthList : List Shape → Nat
  | [] => 0
  | s :: rest => max (Shape.depth s) (Shape.depthList rest)
end

mutual
/-- The shape with every element of an unrecognised kind replaced by an absent one. -/
def Shape.collapse : Shape → Shape
  | .absent => .absent
  | .unrecognized => .absent
  | .schema e => .schema (Shape.collapse e)
  | .resource fs => .resource (Shape.collapseList fs)
def Shape.collapseList : List Shape → List Shape
  | [] => []
  | s :: rest => Shape.collapse s :: Shape.collapseList rest
end

/-! ## Sample trees -/

/-- A scalar field: no element. -/
def sampleScalar : Schema :=
  .mk 4 0 true false none "" false .nil

/-- A resource with one scalar field `name`. -/
def sampleInner : Resource :=
  .mk [("name", some sampleScalar)]

/-- A resource whose field `rule` is a list of `sampleInner` blocks and whose field
`tags` is a list of strings. -/
def sampleOuter : Resource :=
  .mk [("rule", some (.mk 5 0 false true none "" false (.resource (some sampleInner)))),
       ("tags", some (.mk 5 0 true false (some (.bool false)) "" true
          (.schema (some sampleScalar))))]

/-! ## Relating a field mapping to its copy -/

/-- Entry by entry, `m'` holds the copies of the field schemas of `m` under the
same names. -/
def FieldsCopied (m : List (String × Option Schema)) (m' : List (String × SimpleSchema)) : Prop :=
  List.Forall₂ (fun a b => a.1 = b.1 ∧ copySchema a.2 = .ok b.2) m m'

/-! ## JSON encoding (`json.MarshalIndent`, line 124)

`encoding/json` is the Go standard library.  The functions below give its
documented encoding of the types declared at lines 24-38: a struct becomes an
object with one member per field in declaration order, a field tagged `omitempty`
is left out when it is empty (`false`, the empty string, a nil interface), a map
becomes an object whose members are sorted by key, and a value that cannot be
encoded makes the whole call fail.  The entries of a map are encoded first and
sorted afterwards; every failure carries the same error, so the order in which
they are encoded does not show.  The document is kept as a tree; its indented
text is not modelled. -/

/-- A JSON document. -/
inductive Json
  | null
  | bool (b : Bool)
  | num (n : Int)
  | str (s : String)
  | obj (members : List (String × Json))

/-- The member names of a JSON object. -/
def Json.memberNames : Json → List String
  | .obj members => keys members
  | _ => []

/-- Encoding of a value held by the `interface{}` field `Default`. -/
def marshalValue : GoValue → Except String Json
  | .bool b => .ok (.bool b)
  | .int n => .ok (.num n)
  | .str s => .ok (.str s)
  | .func _ => .error "json: unsupported type: func()"

/-- Insertion of one member into a list of members sorted by name; names compare
character by character. -/
def insertByKey (e : String × Json) : List (String × Json) → List (String × Json)
  | [] => [e]
  | f :: rest => if e.1.data < f.1.data then e :: f :: rest else f :: insertByKey e rest

/-- The members of an encoded map, sorted by key. -/
def sortByKey : List (String × Json) → List (String × Json)
  | [] => []
  | e :: rest => insertByKey e (sortByKey rest)

/-- A member present whatever its value. -/
def member (name : String) (v : Json) : List (String × Json) :=
  [(name, v)]

/-- A boolean field tagged `omitempty`: left out when false. -/
def omitemptyBool (name : String) (b : Bool) : List (String × Json) :=
  if b then [(name, .bool true)] else []

/-- A string field tagged `omitempty`: left out when of length zero. -/
def omitemptyString (name : String) (s : String) : List (String × Json) :=
  if s = "" then [] else [(name, .str s)]

/-- An `interface{}` field tagged `omitempty` that holds a plain value: left out
when the interface is nil, otherwise present with the encoding of the value, be
it a zero value or not. -/
def omitemptyValue (name : String) : Option GoValue → Except String (List (String × Json))
  | none => .ok []
  | some v =>
    match marshalValue v with
    | .error err => .error err
    | .ok j => .ok [(name, j)]

mutual
/-- Encoding of the `interface{}` field `Elem`, tagged `omitempty`: left out when
the interface is nil, otherwise the encoding of the value it points to. -/
def marshalElem : SimpleIface → Except String (List (String × Json))
  | .nil => .ok []
  | .resource r =>
    match marshalSimpleResource r with
    | .error e => .error e
    | .ok j => .ok [("Elem", j)]
  | .schema s =>
    match marshalSimpleSchema s with
    | .error e => .error e
    | .ok j => .ok [("Elem", j)]
/-- Encoding of a `SimpleSchema` by its struct tags (lines 29-38). -/
def marshalSimpleSchema : SimpleSchema → Except String Json
  | .mk t c o r d i cp e =>
    match omitemptyValue "Default" d with
    | .error err => .error err
    | .ok dflt =>
      match marshalElem e with
      | .error err => .error err
      | .ok elem =>
        .ok (.obj (member "Type" (.num t) ++ member "ConfigMode" (.num c) ++
          omitemptyBool "Optional" o ++ omitemptyBool "Required" r ++ dflt ++
          omitemptyString "InputDefault" i ++ omitemptyBool "Computed" cp ++ elem))
/-- Encoding of a `SimpleResource`: an object with the one member `Schema`. -/
def marshalSimpleResource : SimpleResource → Except String Json
  | .mk m =>
    match marshalSchemaEntries m with
    | .error e => .error e
    | .ok members => .ok (.obj [("Schema", .obj (sortByKey members))])
/-- Encoding of the entries of a `map[string]*SimpleSchema`, before sorting. -/
def marshalSchemaEntries : List (String × SimpleSchema) → Except String (List (String × Json))
  | [] => .ok []
  | (k, s) :: rest =>
    match marshalSimpleSchema s with
    | .error e => .error e
    | .ok j =>
      match marshalSchemaEntries rest with
      | .error e => .error e
      | .ok js => .ok ((k, j) :: js)
end

/-- Encoding of the entries of a `map[string]*SimpleResource`, before sorting. -/
def marshalResourceEntries : List (String × SimpleResource) →
    Except String (List (String × Json))
  | [] => .ok []
  | (k, r) :: rest =>
    match marshalSimpleResource r with
    | .error e => .error e
    | .ok j =>
      match marshalResourceEntries rest with
      | .error e => .error e
      | .ok js => .ok ((k, j) :: js)

/-- Go `json.MarshalIndent(simpleResourceMap, "", "  ")` (line 124). -/
def marshalIndent (simpleResourceMap : List (String × SimpleResource)) : Except String Json :=
  match marshalResourceEntries simpleResourceMap with
  | .error e => .error e
  | .ok members => .ok (.obj (sortByKey members))

/-! ## The program's surroundings and `main` (lines 83-150) -/

/-- The two output files. -/
inductive File
  | schema
  | names
  deriving DecidableEq, Repr

/-- What `os.Stat` returns: the not-exist error, another error, or the file info
with its `IsDir` bit. -/
inductive StatResult
  | notExist
  | failed (err : String)
  | info (isDir : Bool)
  deriving DecidableEq, Repr

/-- Everything outside the program that a run reads: the command line, the file
system's answers and the provider's registry.  An operation answers `none` when
it succeeds and `some err` when it returns the error `err`. -/
structure Env where
  /-- Go `os.Args`, the program name first. -/
  args : List String
  /-- Go `os.Stat`. -/
  stat : String → StatResult
  /-- Go `path.Join` of a directory and a file name. -/
  pathJoin : String → String → String
  /-- Go `os.Create` of a path. -/
  create : String → Option String
  /-- Go `resourceNamesOutFile.WriteString`, by the number of earlier calls. -/
  writeString : Nat → Option String
  /-- Go `schemaOutFile.Write`. -/
  write : Option String
  /-- Go `Close` of an output file. -/
  close : File → Option String
  /-- Go `provider.Provider().ResourcesMap`, in the order the loop visits it. -/
  resourcesMap : List (String × Option Resource)

/-- The effects of a run, in order; `ok` tells whether the operation succeeded. -/
inductive Event
  | stdout (text : String)
  | create (path : String) (ok : Bool)
  | writeString (text : String) (ok : Bool)
  | write (doc : Json) (ok : Bool)
  | close (file : File) (ok : Bool)

/-- A run: its effects and how it ended, by returning or by a panic. -/
structure Run where
  events : List Event
  result : Except Panic Unit

/-- Go `usage` (lines 147-150); `args[0]` of an empty slice panics. -/
def usage (args : List String) : Run :=
  match args with
  | [] => ⟨[], .error .indexOutOfRange⟩
  | a :: _ =>
    ⟨[.stdout ("Usage: " ++ a ++ " dir_for_schema dir_for_resource_list")],
      .error (.message "Missing command line arguments")⟩

/-- Go `checkDirectory` (lines 135-145): the panic it raises, if any.  After an
error other than not-exist `fi` is nil and `fi.IsDir()` panics. -/
def checkDirectory (env : Env) (dir : String) : Option Panic :=
  match env.stat dir with
  | .notExist => some (.message ("Directory '" ++ dir ++ "' not found"))
  | .failed _ => some .nilDereference
  | .info isDir =>
    if !isDir then some (.message ("'" ++ dir ++ "' is not a directory")) else none

/-- The variables of the export loop: the output mapping, the effects so far and
the counter. -/
structure Export where
  simpleResourceMap : List (String × SimpleResource)
  events : List Event
  count : Nat

/-- The loop of lines 118-122 over the registry entries still to visit.  The
value returned by `WriteString` is dropped. -/
def exportLoop (env : Env) : List (String × Option Resource) → Export → Export × Option Panic
  | [], st => (st, none)
  | (k, r) :: rest, st =>
    match copyResource r with
    | .error p => (st, some p)
    | .ok r' =>
      exportLoop env rest
        ⟨mapSet st.simpleResourceMap k r',
          st.events ++ [.writeString (k ++ "\n") (env.writeString st.count).isNone],
          st.count + 1⟩

/-- The loop variables before the first iteration (lines 114-116). -/
def exportStart : Export :=
  ⟨[], [.stdout "Exporting terraform-aws-provider schema...\n"], 0⟩

/-- The final message of line 132. -/
def countMessage (count : Nat) : String :=
  toString count ++ " resources exported.\n\n"

/-- Lines 114-132: the export proper, its effects and the panic that ended it, if
any.  The value returned by `Write` is dropped. -/
def exportAll (env : Env) : List Event × Option Panic :=
  match exportLoop env env.resourcesMap exportStart with
  | (st, some p) => (st.events, some p)
  | (st, none) =>
    match marshalIndent st.simpleResourceMap with
    | .error e =>
      (st.events ++ [.stdout ("JSON error: " ++ e ++ "\n"), .stdout (countMessage st.count)],
        none)
    | .ok j =>
      (st.events ++ [.write j env.write.isNone, .stdout (countMessage st.count)], none)

/-- The deferred function of lines 105-112. -/
def deferredClose (env : Env) : List Event × Option Panic :=
  match env.close .schema with
  | some err => ([.close .schema false], some (.error err))
  | none =>
    match env.close .names with
    | some err => ([.close .schema true, .close .names false], some (.error err))
    | none => ([.close .schema true, .close .names true], none)

/-- Go `main` (lines 83-133). -/
def main (env : Env) : Run :=
  if h : env.args.length < 3 then usage env.args
  else
    let schemaDirname := env.args.get ⟨1, by omega⟩
    let resourceNamesDirName := env.args.get ⟨2, by omega⟩
    match checkDirectory env schemaDirname with
    | some p => ⟨[], .error p⟩
    | none =>
      match checkDirectory env resourceNamesDirName with
      | some p => ⟨[], .error p⟩
      | none =>
        let schemaPath := env.pathJoin schemaDirname "terraform-aws-schema.json"
        match env.create schemaPath with
        | some err => ⟨[.create schemaPath false], .error (.error err)⟩
        | none =>
          let namesPath := env.pathJoin resourceNamesDirName "terraform-aws-resource-names.txt"
          match env.create namesPath with
          | some err =>
            ⟨[.create schemaPath true, .create namesPath false], .error (.error err)⟩
          | none =>
            let body := exportAll env
            let closing := deferredClose env
            ⟨[.create schemaPath true, .create namesPath true] ++ body.1 ++ closing.1,
              match closing.2, body.2 with
              | some p, _ => .error p
              | none, some p => .error p
              | none, none => .ok ()⟩

/-- The texts handed to `WriteString`, in order. -/
def namesWritten : List Event → List String
  | [] => []
  | .writeString text _ :: rest => text :: namesWritten rest
  | _ :: rest => namesWritten rest

/-- The `WriteString` events of the loop for the names `ks`, the first of them
being call number `n`. -/
def writeEvents (env : Env) : Nat → List String → List Event
  | _, [] => []
  | n, k :: ks =>
    .writeString (k ++ "\n") (env.writeString n).isNone :: writeEvents env (n + 1) ks

/-- Whether an event creates, truncates, writes or closes an output file. -/
def Event.touchesFile : Event → Bool
  | .stdout _ => false
  | _ => true

/-- Lines 85-103 pass: two directory arguments are given, both are directories
and both output files are created. -/
def Env.opens (env : Env) : Bool :=
  match env.args with
  | _ :: schemaDirname :: resourceNamesDirName :: _ =>
    (checkDirectory env schemaDirname).isNone &&
    (checkDirectory env resourceNamesDirName).isNone &&
    (env.create (env.pathJoin schemaDirname "terraform-aws-schema.json")).isNone &&
    (env.create (env.pathJoin resourceNamesDirName "terraform-aws-resource-names.txt")).isNone
  | _ => false

/-- Entry by entry, `rs` holds the copies of the resource definitions of the
registry under the same names. -/
def ResourcesCopied (registry : List (String × Option Resource))
    (rs : List (String × SimpleResource)) : Prop :=
  List.Forall₂ (fun a b => a.1 = b.1 ∧ copyResource a.2 = .ok b.2) registry rs

/-- The value held by `Default` is the zero value of its type. -/
def GoValue.isZero : GoValue → Bool
  | .bool b => !b
  | .int n => n == 0
  | .str s => s == ""
  | .func _ => false

/-- Whether an event writes to the schema file. -/
def Event.isWrite : Event → Bool
  | .write _ _ => true
  | _ => false

/-- Whether a run ended by a panic. -/
def Run.aborted (run : Run) : Bool :=
  !run.result.isOk

/-- A file system in which both directories exist and every operation succeeds. -/
def sampleEnv (resourcesMap : List (String × Option Resource)) : Env :=
  ⟨["schema-loader", "out", "names"], fun _ => .info true, fun d f => d ++ "/" ++ f,
    fun _ => none, fun _ => none, none, fun _ => none, resourcesMap⟩

/-! ## Further sample inputs -/

/-- The copy of `sampleOuter`. -/
def sampleOuterCopy : SimpleResource :=
  .mk [("rule", .mk 5 0 false true none "" false
          (.resource (.mk [("name", .mk 4 0 true false none "" false .nil)]))),
       ("tags", .mk 5 0 true false (some (.bool false)) "" true
          (.schema (.mk 4 0 true false none "" false .nil)))]

/-- A field whose `Elem` is of an unrecognised kind: the value type `TypeString`
itself, not a pointer to a schema. -/
def sampleMapField : Schema :=
  .mk 6 0 true false none "" false (.other (.int 4))

/-- A resource with the one field `labels`, which is `sampleMapField`. -/
def sampleLabels : Resource :=
  .mk [("labels", some sampleMapField)]

/-- The copy of `sampleLabels`. -/
def sampleLabelsCopy : SimpleResource :=
  .mk [("labels", .mk 6 0 true false none "" false .nil)]

/-- A resource whose field mapping holds a nil `*schema.Schema`. -/
def sampleNilField : Resource :=
  .mk [("name", none)]

/-- A field with the declared default `false` and nothing else set. -/
def sampleDefaultFalse : SimpleSchema :=
  .mk 1 0 false false (some (.bool false)) "" false .nil

/-- A field with no flag, no default, no input default and no element. -/
def sampleBare : SimpleSchema :=
  .mk 4 0 false false none "" false .nil

/-- A registry of one resource type, `aws_x`. -/
def sampleRegistry : List (String × Option Resource) :=
  [("aws_x", some sampleInner)]

/-- A run in which both directories exist, both files are created, and every write
to either file fails. -/
def failingWriteEnv : Env :=
  ⟨["schema-loader", "out", "names"], fun _ => .info true, fun d f => d ++ "/" ++ f,
    fun _ => none, fun _ => some "no space left on device",
    some "no space left on device", fun _ => none, sampleRegistry⟩

/-- A run whose second directory argument does not exist. -/
def missingDirEnv : Env :=
  ⟨["schema-loader", "out", "nowhere"],
    fun d => if d = "nowhere" then .notExist else .info true,
    fun d f => d ++ "/" ++ f, fun _ => none, fun _ => none, none, fun _ => none,
    sampleRegistry⟩

/-- A registry whose one resource has a field with a function as its default, which
`encoding/json` cannot encode. -/
def unencodableRegistry : List (String × Option Resource) :=
  [("aws_y", some (.mk [("hook", some (.mk 4 0 true false (some (.func "f")) "" false .nil))]))]

/-! ## Lemmas about the copy -/

theorem isOk_map {ε α β : Type} (f : α → β) (x : Except ε α) :
    (x.map f).isOk = x.isOk := by
  cases x <;> rfl

theorem map_eq_ok {ε α β : Type} {f : α → β} {x : Except ε α} {b : β}
    (h : x.map f = .ok b) : ∃ a, x = .ok a ∧ f a = b := by
  cases x with
  | error e => cases h
  | ok a => exact ⟨a, rfl, by injection h⟩

theorem mapSet_of_not_mem {α : Type} (m : List (String × α)) (k : String) (v : α)
    (h : k ∉ keys m) : mapSet m k v = m ++ [(k, v)] := by
  induction m with
  | nil => rfl
  | cons a rest ih =>
    obtain ⟨k', v'⟩ := a
    simp only [keys, List.map_cons, List.mem_cons, not_or] at h
    have hne : ¬ k' = k := fun e => h.1 e.symm
    simp only [mapSet, hne, if_false, List.cons_append]
    rw [ih (by simpa [keys] using h.2)]

theorem copyFields_of_nodup : ∀ (m : List (String × Option Schema))
    (rs out : List (String × SimpleSchema)),
    (keys m).Nodup → (∀ k ∈ keys m, k ∉ keys rs) → copyFields m rs = .ok out →
    ∃ m', out = rs ++ m' ∧ FieldsCopied m m'
  | [], rs, out, _, _, h => by
    rw [copyFields] at h
    injection h with h
    exact ⟨[], by simp [h], List.Forall₂.nil⟩
  | (k, s) :: rest, rs, out, hnd, hdisj, h => by
    rw [copyFields] at h
    cases hs : copySchema s with
    | error p => rw [hs] at h; cases h
    | ok s' =>
      rw [hs] at h
      simp only at h
      have hk : k ∉ keys rs := hdisj k (by simp [keys])
      rw [mapSet_of_not_mem rs k s' hk] at h
      simp only [keys, List.map_cons, List.nodup_cons] at hnd
      have hdisj' : ∀ k' ∈ keys rest, k' ∉ keys (rs ++ [(k, s')]) := by
        intro k' hk' hmem
        simp only [keys, List.map_append, List.map_cons, List.map_nil, List.mem_append,
          List.mem_singleton] at hmem
        rcases hmem with hmem | hmem
        · exact hdisj k' (by simp only [keys, List.map_cons, List.mem_cons]; exact Or.inr hk') hmem
        · exact hnd.1 (hmem ▸ hk')
      obtain ⟨m', hout, hm'⟩ := copyFields_of_nodup rest (rs ++ [(k, s')]) out hnd.2 hdisj' h
      exact ⟨(k, s') :: m', by simp [hout], List.Forall₂.cons ⟨rfl, hs⟩ hm'⟩

theorem fieldsCopied_keys_eq {m : List (String × Option Schema)}
    {m' : List (String × SimpleSchema)} (h : FieldsCopied m m') : keys m' = keys m := by
  induction h with
  | nil => rfl
  | cons hab _ ih => simp only [keys, List.map_cons] at ih ⊢; rw [ih, hab.1]

theorem fieldsCopied_length_eq {m : List (String × Option Schema)}
    {m' : List (String × SimpleSchema)} (h : FieldsCopied m m') : m'.length = m.length :=
  (List.Forall₂.length_eq h).symm

/-- On a resource whose field names are pairwise distinct, a successful
`copyResource` returns the entry-by-entry copy of the field mapping. -/
theorem copyResource_fieldsCopied {m : List (String × Option Schema)} {out : SimpleResource}
    (hnd : (keys m).Nodup) (h : copyResource (some (.mk m)) = .ok out) :
    FieldsCopied m out.Schema := by
  rw [copyResource] at h
  obtain ⟨m', hm', rfl⟩ := map_eq_ok h
  obtain ⟨m'', hout, hcop⟩ := copyFields_of_nodup m [] m' hnd (by simp [keys]) hm'
  simp only [List.nil_append] at hout
  subst hout
  exact hcop

mutual
theorem recurseSchema_isOk : ∀ e : Iface, (recurseSchema e).isOk = e.nullFree
  | .nil => rfl
  | .other _ => rfl
  | .resource p => by
    rw [recurseSchema, isOk_map, Iface.nullFree]
    exact copyResource_isOk p
  | .schema p => by
    rw [recurseSchema, isOk_map, Iface.nullFree]
    exact copySchema_isOk p
theorem copySchema_isOk : ∀ s : Option Schema, (copySchema s).isOk = schemaPtrNullFree s
  | none => rfl
  | some (.mk _ _ _ _ _ _ _ e) => by
    rw [copySchema, isOk_map, schemaPtrNullFree]
    exact recurseSchema_isOk e
theorem copyResource_isOk : ∀ r : Option Resource, (copyResource r).isOk = resourcePtrNullFree r
  | none => rfl
  | some (.mk m) => by
    rw [copyResource, isOk_map, resourcePtrNullFree]
    exact copyFields_isOk m []
theorem copyFields_isOk : ∀ (m : List (String × Option Schema))
    (rs : List (String × SimpleSchema)),
    (copyFields m rs).isOk = fieldsNullFree m
  | [], _ => rfl
  | (k, s) :: rest, rs => by
    have hs := copySchema_isOk s
    rw [copyFields, fieldsNullFree]
    cases h : copySchema s with
    | error p =>
      rw [h] at hs
      simp [← hs, Except.isOk, Except.toBool]
    | ok s' =>
      rw [h] at hs
      simp only [← hs, Except.isOk, Except.toBool, Bool.true_and]
      exact copyFields_isOk rest (mapSet rs k s')
end

mutual
theorem recurseSchema_skeleton : ∀ (e : Iface) (out : SimpleIface), e.wf = true →
    recurseSchema e = .ok out →
    out.keyTree = e.keyTree ∧ out.shape = e.shape.collapse
  | .nil, out, _, h => by
    rw [recurseSchema] at h
    injection h with h
    subst h
    exact ⟨rfl, rfl⟩
  | .other _, out, _, h => by
    rw [recurseSchema] at h
    injection h with h
    subst h
    exact ⟨rfl, rfl⟩
  | .resource p, out, hwf, h => by
    rw [recurseSchema] at h
    obtain ⟨r', hr', rfl⟩ := map_eq_ok h
    rw [Iface.wf] at hwf
    have := copyResource_skeleton p r' hwf hr'
    rw [SimpleIface.keyTree, SimpleIface.shape, Iface.keyTree, Iface.shape, Shape.collapse,
      this.1, this.2]
    exact ⟨rfl, rfl⟩
  | .schema p, out, hwf, h => by
    rw [recurseSchema] at h
    obtain ⟨s', hs', rfl⟩ := map_eq_ok h
    rw [Iface.wf] at hwf
    have := copySchema_skeleton p s' hwf hs'
    rw [SimpleIface.keyTree, SimpleIface.shape, Iface.keyTree, Iface.shape, Shape.collapse,
      this.1, this.2]
    exact ⟨rfl, rfl⟩
theorem copySchema_skeleton : ∀ (s : Option Schema) (out : SimpleSchema), schemaPtrWf s = true →
    copySchema s = .ok out →
    out.keyTree = schemaPtrKeyTree s ∧ out.shape = (schemaPtrShape s).collapse
  | none, _, _, h => by rw [copySchema] at h; cases h
  | some (.mk _ _ _ _ _ _ _ e), out, hwf, h => by
    rw [copySchema] at h
    obtain ⟨e', he', rfl⟩ := map_eq_ok h
    rw [schemaPtrWf] at hwf
    have := recurseSchema_skeleton e e' hwf he'
    rw [SimpleSchema.keyTree, SimpleSchema.shape, schemaPtrKeyTree, schemaPtrShape]
    exact this
theorem copyResource_skeleton : ∀ (r : Option Resource) (out : SimpleResource),
    resourcePtrWf r = true → copyResource r = .ok out →
    out.keyTree = resourcePtrKeyTree r ∧ out.shape = Shape.collapseList (resourcePtrShape r)
  | none, _, _, h => by rw [copyResource] at h; cases h
  | some (.mk m), out, hwf, h => by
    rw [resourcePtrWf, Bool.and_eq_true, decide_eq_true_eq] at hwf
    have hcop := copyResource_fieldsCopied hwf.1 h
    obtain ⟨m'⟩ := out
    have := fields_skeleton m m' hwf.2 hcop
    rw [SimpleResource.keyTree, SimpleResource.shape, resourcePtrKeyTree, resourcePtrShape,
      this.1, this.2]
    exact ⟨rfl, rfl⟩
theorem fields_skeleton : ∀ (m : List (String × Option Schema))
    (m' : List (String × SimpleSchema)), fieldsWf m = true → FieldsCopied m m' →
    simpleFieldsKeyTree m' = fieldsKeyTree m ∧
      simpleFieldsShape m' = Shape.collapseList (fieldsShape m)
  | [], m', _, h => by
    cases h
    exact ⟨rfl, rfl⟩
  | (k, s) :: rest, m', hwf, h => by
    cases h with
    | cons hab hrest =>
      rename_i b rest'
      obtain ⟨k', s'⟩ := b
      rw [fieldsWf, Bool.and_eq_true] at hwf
      have h1 := copySchema_skeleton s s' hwf.1 hab.2
      have h2 := fields_skeleton rest rest' hwf.2 hrest
      have hk : k = k' := hab.1
      subst hk
      rw [simpleFieldsKeyTree, simpleFieldsShape, fieldsKeyTree, fieldsShape, Shape.collapseList,
        h1.1, h1.2, h2.1, h2.2]
      exact ⟨rfl, rfl⟩
end

mutual
theorem Shape.depth_collapse : ∀ s : Shape, s.collapse.depth = s.depth
  | .absent => rfl
  | .unrecognized => rfl
  | .schema e => by rw [Shape.collapse, Shape.depth, Shape.depth, Shape.depth_collapse e]
  | .resource fs => by
    rw [Shape.collapse, Shape.depth, Shape.depth, Shape.depthList_collapseList fs]
theorem Shape.depthList_collapseList : ∀ fs : List Shape,
    Shape.depthList (Shape.collapseList fs) = Shape.depthList fs
  | [] => rfl
  | s :: rest => by
    rw [Shape.collapseList, Shape.depthList, Shape.depthList, Shape.depth_collapse s,
      Shape.depthList_collapseList rest]
end


mutual
theorem recurseSchema_error : ∀ (e : Iface) (p : Panic), recurseSchema e = .error p →
    p = .nilDereference
  | .nil, _, h => by rw [recurseSchema] at h; cases h
  | .other _, _, h => by rw [recurseSchema] at h; cases h
  | .resource r, p, h => by
    rw [recurseSchema] at h
    cases hr : copyResource r with
    | error q =>
      rw [hr] at h
      injection h with h
      exact h ▸ copyResource_error r q hr
    | ok out => rw [hr] at h; cases h
  | .schema s, p, h => by
    rw [recurseSchema] at h
    cases hs : copySchema s with
    | error q =>
      rw [hs] at h
      injection h with h
      exact h ▸ copySchema_error s q hs
    | ok out => rw [hs] at h; cases h
theorem copySchema_error : ∀ (s : Option Schema) (p : Panic), copySchema s = .error p →
    p = .nilDereference
  | none, _, h => by
    rw [copySchema] at h
    injection h with h
    exact h.symm
  | some (.mk _ _ _ _ _ _ _ e), p, h => by
    rw [copySchema] at h
    cases he : recurseSchema e with
    | error q =>
      rw [he] at h
      injection h with h
      exact h ▸ recurseSchema_error e q he
    | ok out => rw [he] at h; cases h
theorem copyResource_error : ∀ (r : Option Resource) (p : Panic), copyResource r = .error p →
    p = .nilDereference
  | none, _, h => by
    rw [copyResource] at h
    injection h with h
    exact h.symm
  | some (.mk m), p, h => by
    rw [copyResource] at h
    cases hm : copyFields m [] with
    | error q =>
      rw [hm] at h
      injection h with h
      exact h ▸ copyFields_error m [] q hm
    | ok out => rw [hm] at h; cases h
theorem copyFields_error : ∀ (m : List (String × Option Schema))
    (rs : List (String × SimpleSchema)) (p : Panic), copyFields m rs = .error p →
    p = .nilDereference
  | [], _, _, h => by rw [copyFields] at h; cases h
  | (k, s) :: rest, rs, p, h => by
    rw [copyFields] at h
    cases hs : copySchema s with
    | error q =>
      rw [hs] at h
      injection h with h
      exact h ▸ copySchema_error s q hs
    | ok s' =>
      rw [hs] at h
      exact copyFields_error rest (mapSet rs k s') p h
end

theorem isOk_eq_true {ε α : Type} {x : Except ε α} (h : x.isOk = true) : ∃ a, x = .ok a := by
  cases x with
  | error e => cases h
  | ok a => exact ⟨a, rfl⟩

/-! ## The claims about the copy -/

/-- C1: for a resource definition `r` whose field mappings are Go maps,
`copyResource` returns exactly when no nil pointer is reachable from `r`, and the
result has the field names of `r`, each exactly once and unmodified, at the top
level and at every nesting level reached through `Elem`. -/
theorem copyResource_preserves_keys (r : Resource) (hwf : resourcePtrWf (some r) = true) :
    (copyResource (some r)).isOk = resourcePtrNullFree (some r) ∧
    ∀ out, copyResource (some r) = .ok out →
      keys out.Schema = keys r.Schema ∧
      (∀ k, k ∈ keys out.Schema ↔ k ∈ keys r.Schema) ∧
      (∀ k, k ∈ keys r.Schema → (keys out.Schema).count k = 1) ∧
      out.keyTree = resourcePtrKeyTree (some r) := by
  refine ⟨copyResource_isOk _, ?_⟩
  intro out h
  obtain ⟨m⟩ := r
  have hwf' := hwf
  rw [resourcePtrWf, Bool.and_eq_true, decide_eq_true_eq] at hwf'
  have hkeys : keys out.Schema = keys m :=
    fieldsCopied_keys_eq (copyResource_fieldsCopied hwf'.1 h)
  refine ⟨hkeys, ?_, ?_, (copyResource_skeleton _ out hwf h).1⟩
  · intro k
    rw [hkeys]
    rfl
  · intro k hk
    rw [hkeys]
    exact List.count_eq_one_of_mem hwf'.1 hk

theorem copyResource_preserves_keys_witness :
    copyResource (some sampleOuter) = .ok sampleOuterCopy ∧
    keys sampleOuterCopy.Schema = ["rule", "tags"] ∧
    sampleOuterCopy.keyTree = resourcePtrKeyTree (some sampleOuter) :=
  ⟨rfl, rfl, ((copyResource_preserves_keys sampleOuter rfl).2 sampleOuterCopy rfl).2.2.2⟩

/-- C2: `copySchema` returns whenever no nil pointer is reachable from `s.Elem`,
and the copy then has the `Type`, `ConfigMode`, `Optional`, `Required`,
`Computed`, `Default` and `InputDefault` of `s`, whatever `s.Elem` is. -/
theorem copySchema_copies_attributes (s : Schema) :
    (copySchema (some s)).isOk = s.Elem.nullFree ∧
    ∀ out, copySchema (some s) = .ok out →
      out.Type_ = s.Type_ ∧ out.ConfigMode = s.ConfigMode ∧ out.Optional = s.Optional ∧
      out.Required = s.Required ∧ out.Computed = s.Computed ∧ out.Default = s.Default ∧
      out.InputDefault = s.InputDefault := by
  obtain ⟨t, c, o, r, d, i, cp, e⟩ := s
  refine ⟨?_, ?_⟩
  · rw [copySchema_isOk, schemaPtrNullFree]
    rfl
  · intro out h
    rw [copySchema] at h
    obtain ⟨e', _, rfl⟩ := map_eq_ok h
    exact ⟨rfl, rfl, rfl, rfl, rfl, rfl, rfl⟩

theorem copySchema_copies_attributes_witness :
    copySchema (some sampleMapField) = .ok (.mk 6 0 true false none "" false .nil) ∧
    (SimpleSchema.mk 6 0 true false none "" false .nil).Type_ = sampleMapField.Type_ :=
  ⟨rfl, ((copySchema_copies_attributes sampleMapField).2 _ rfl).1⟩

/-- C3: `recurseSchema` dispatches on the dynamic type of its argument: a
`*schema.Resource` goes to `copyResource`, a `*schema.Schema` to `copySchema`, the
nil interface and every other kind give nil; hence the `Elem` of `copySchema(s)`
is `recurseSchema(s.Elem)`, and it is nil exactly when `s.Elem` is nil or of an
unrecognised kind. -/
theorem recurseSchema_dispatch :
    (∀ r, recurseSchema (.resource r) = (copyResource r).map SimpleIface.resource) ∧
    (∀ s, recurseSchema (.schema s) = (copySchema s).map SimpleIface.schema) ∧
    recurseSchema .nil = .ok .nil ∧
    (∀ v, recurseSchema (.other v) = .ok .nil) ∧
    (∀ s : Schema, (copySchema (some s)).map SimpleSchema.Elem = recurseSchema s.Elem) ∧
    (∀ (s : Schema) (out : SimpleSchema), copySchema (some s) = .ok out →
      (out.Elem = .nil ↔ s.Elem = .nil ∨ ∃ v, s.Elem = .other v)) := by
  refine ⟨fun _ => rfl, fun _ => rfl, rfl, fun _ => rfl, ?_, ?_⟩
  · intro s
    obtain ⟨t, c, o, r, d, i, cp, e⟩ := s
    rw [copySchema, Schema.Elem]
    cases recurseSchema e <;> rfl
  · intro s out h
    obtain ⟨t, c, o, r, d, i, cp, e⟩ := s
    rw [copySchema] at h
    obtain ⟨e', he', rfl⟩ := map_eq_ok h
    simp only [SimpleSchema.Elem, Schema.Elem]
    cases e with
    | nil =>
      rw [recurseSchema] at he'
      injection he' with he'
      simp [← he']
    | other v =>
      rw [recurseSchema] at he'
      injection he' with he'
      simp [← he']
    | resource p =>
      rw [recurseSchema] at he'
      obtain ⟨x, _, rfl⟩ := map_eq_ok he'
      simp
    | schema p =>
      rw [recurseSchema] at he'
      obtain ⟨x, _, rfl⟩ := map_eq_ok he'
      simp

theorem recurseSchema_dispatch_witness :
    copySchema (some sampleMapField) = .ok (.mk 6 0 true false none "" false .nil) ∧
    ((SimpleSchema.mk 6 0 true false none "" false .nil).Elem = .nil ↔
      sampleMapField.Elem = .nil ∨ ∃ v, sampleMapField.Elem = .other v) :=
  ⟨rfl, recurseSchema_dispatch.2.2.2.2.2 sampleMapField _ rfl⟩

/-- C4, as stated, fails: the field `labels` has an element of an unrecognised
kind in the source and no element in the copy, so the kinds of the nodes are not
the same. -/
theorem shape_differs_on_unrecognized_elem :
    copyResource (some sampleLabels) = .ok sampleLabelsCopy ∧
    mapGet sampleLabels.Schema "labels" = some (some sampleMapField) ∧
    sampleMapField.Elem = .other (.int 4) ∧
    (mapGet sampleLabelsCopy.Schema "labels").map SimpleSchema.Elem = some .nil ∧
    SimpleIface.shape (.resource sampleLabelsCopy) ≠
      Iface.shape (.resource (some sampleLabels)) := by
  refine ⟨rfl, rfl, rfl, rfl, ?_⟩
  intro h
  simp [SimpleIface.shape, SimpleResource.shape, sampleLabelsCopy, simpleFieldsShape,
    SimpleSchema.shape, Iface.shape, resourcePtrShape, sampleLabels, fieldsShape,
    schemaPtrShape, sampleMapField] at h

/-- C4, amended: for a resource definition `r` whose field mappings are Go maps,
`copyResource` returns exactly when no nil pointer is reachable, and the copy has
the shape of `r` with every element of an unrecognised kind turned into an
absent one: the same nesting depth, the same number of fields in every resource,
a simplified resource or field schema exactly where the source has a resource or
field schema. -/
theorem copyResource_preserves_shape (r : Resource) (hwf : resourcePtrWf (some r) = true) :
    (copyResource (some r)).isOk = resourcePtrNullFree (some r) ∧
    ∀ out, copyResource (some r) = .ok out →
      SimpleIface.shape (.resource out) = (Iface.shape (.resource (some r))).collapse ∧
      (SimpleIface.shape (.resource out)).depth = (Iface.shape (.resource (some r))).depth ∧
      out.Schema.length = r.Schema.length := by
  refine ⟨copyResource_isOk _, ?_⟩
  intro out h
  have hshape : SimpleIface.shape (.resource out) =
      (Iface.shape (.resource (some r))).collapse := by
    rw [SimpleIface.shape, Iface.shape, Shape.collapse, (copyResource_skeleton _ out hwf h).2]
  refine ⟨hshape, ?_, ?_⟩
  · rw [hshape, Shape.depth_collapse]
  · obtain ⟨m⟩ := r
    rw [resourcePtrWf, Bool.and_eq_true, decide_eq_true_eq] at hwf
    exact fieldsCopied_length_eq (copyResource_fieldsCopied hwf.1 h)

theorem copyResource_preserves_shape_witness :
    copyResource (some sampleOuter) = .ok sampleOuterCopy ∧
    (mapGet sampleOuterCopy.Schema "rule").map SimpleSchema.Elem =
      some (.resource (.mk [("name", .mk 4 0 true false none "" false .nil)])) ∧
    (SimpleIface.shape (.resource sampleOuterCopy)).depth = 2 ∧
    SimpleIface.shape (.resource sampleOuterCopy) =
      (Iface.shape (.resource (some sampleOuter))).collapse :=
  ⟨rfl, rfl, rfl, ((copyResource_preserves_shape sampleOuter rfl).2 sampleOuterCopy rfl).1⟩

/-- C5, as stated, fails: a nil `*schema.Resource` or `*schema.Schema` held by an
element reference, and a nil `*schema.Schema` held by a field mapping, make the
copy panic with a nil dereference. -/
theorem copy_panics_on_nil_pointer :
    recurseSchema (.resource none) = .error .nilDereference ∧
    recurseSchema (.schema none) = .error .nilDereference ∧
    recurseSchema (.resource (some sampleNilField)) = .error .nilDereference := by
  exact ⟨rfl, rfl, rfl⟩

/-- C5, amended: on a finite acyclic schema graph `recurseSchema` returns a result
for every argument from which no nil pointer is reachable, be it a resource, a
field schema, the nil interface or a value of another kind; when a nil pointer
is reachable it panics with a nil dereference. -/
theorem recurseSchema_total (e : Iface) :
    (e.nullFree = true → ∃ out, recurseSchema e = .ok out) ∧
    (e.nullFree = false → recurseSchema e = .error .nilDereference) := by
  constructor
  · intro h
    exact isOk_eq_true ((recurseSchema_isOk e).trans h)
  · intro h
    have hok := (recurseSchema_isOk e).trans h
    cases hr : recurseSchema e with
    | error p => rw [recurseSchema_error e p hr]
    | ok out => rw [hr] at hok; cases hok

theorem recurseSchema_total_witness :
    Iface.nullFree (.resource (some sampleOuter)) = true ∧
    ∃ out, recurseSchema (.resource (some sampleOuter)) = .ok out :=
  ⟨rfl, (recurseSchema_total (.resource (some sampleOuter))).1 rfl⟩

/-! ## Lemmas about the export loop and `main` -/

theorem namesWritten_append (xs ys : List Event) :
    namesWritten (xs ++ ys) = namesWritten xs ++ namesWritten ys := by
  induction xs with
  | nil => rfl
  | cons e rest ih => cases e <;> simp [namesWritten, ih]

theorem namesWritten_writeEvents (env : Env) (ks : List String) (n : Nat) :
    namesWritten (writeEvents env n ks) = ks.map (fun k => k ++ "\n") := by
  induction ks generalizing n with
  | nil => rfl
  | cons k rest ih => simp [writeEvents, namesWritten, ih]

theorem isWrite_writeEvents (env : Env) (ks : List String) (n : Nat) :
    ∀ e ∈ writeEvents env n ks, e.isWrite = false := by
  induction ks generalizing n with
  | nil => intro e he; cases he
  | cons k rest ih =>
    intro e he
    rw [writeEvents, List.mem_cons] at he
    rcases he with rfl | he
    · rfl
    · exact ih (n + 1) e he

/-- A loop that runs to its end has counted every entry and has handed every name,
followed by a newline, to `WriteString`, in order. -/
theorem exportLoop_complete (env : Env) : ∀ (registry : List (String × Option Resource))
    (st st' : Export), exportLoop env registry st = (st', none) →
    st'.count = st.count + registry.length ∧
      st'.events = st.events ++ writeEvents env st.count (keys registry)
  | [], st, st', h => by
    rw [exportLoop] at h
    injection h with h _
    subst h
    simp [keys, writeEvents]
  | (k, r) :: rest, st, st', h => by
    rw [exportLoop] at h
    cases hr : copyResource r with
    | error p => rw [hr] at h; cases h
    | ok out =>
      rw [hr] at h
      have ih := exportLoop_complete env rest _ st' h
      simp only at ih
      refine ⟨?_, ?_⟩
      · rw [ih.1, List.length_cons]; omega
      · rw [ih.2]; simp [keys, writeEvents]

theorem exportLoop_of_nullFree (env : Env) : ∀ (registry : List (String × Option Resource))
    (st : Export), (∀ e ∈ registry, resourcePtrNullFree e.2 = true) →
    ∃ st', exportLoop env registry st = (st', none)
  | [], st, _ => ⟨st, rfl⟩
  | (k, r) :: rest, st, h => by
    obtain ⟨out, hout⟩ := isOk_eq_true ((copyResource_isOk r).trans (h (k, r) (by simp)))
    rw [exportLoop, hout]
    exact exportLoop_of_nullFree env rest _ (fun e he => h e (List.mem_cons_of_mem _ he))

theorem exportLoop_map (env : Env) : ∀ (registry : List (String × Option Resource))
    (st st' : Export), (keys registry).Nodup →
    (∀ k ∈ keys registry, k ∉ keys st.simpleResourceMap) →
    exportLoop env registry st = (st', none) →
    ∃ rs, st'.simpleResourceMap = st.simpleResourceMap ++ rs ∧ ResourcesCopied registry rs
  | [], st, st', _, _, h => by
    rw [exportLoop] at h
    injection h with h _
    subst h
    exact ⟨[], by simp, List.Forall₂.nil⟩
  | (k, r) :: rest, st, st', hnd, hdisj, h => by
    rw [exportLoop] at h
    cases hr : copyResource r with
    | error p => rw [hr] at h; cases h
    | ok out =>
      rw [hr] at h
      simp only at h
      have hk : k ∉ keys st.simpleResourceMap := hdisj k (by simp [keys])
      rw [mapSet_of_not_mem _ k out hk] at h
      simp only [keys, List.map_cons, List.nodup_cons] at hnd
      have hdisj' : ∀ k' ∈ keys rest, k' ∉ keys (st.simpleResourceMap ++ [(k, out)]) := by
        intro k' hk' hmem
        simp only [keys, List.map_append, List.map_cons, List.map_nil, List.mem_append,
          List.mem_singleton] at hmem
        rcases hmem with hmem | hmem
        · exact hdisj k' (by simp only [keys, List.map_cons, List.mem_cons]; exact Or.inr hk') hmem
        · exact hnd.1 (hmem ▸ hk')
      obtain ⟨rs, hrs, hcop⟩ := exportLoop_map env rest _ st' hnd.2 hdisj' h
      exact ⟨(k, out) :: rs, by simp [hrs], List.Forall₂.cons ⟨rfl, hr⟩ hcop⟩

theorem resourcesCopied_keys_eq {registry : List (String × Option Resource)}
    {rs : List (String × SimpleResource)} (h : ResourcesCopied registry rs) :
    keys rs = keys registry := by
  induction h with
  | nil => rfl
  | cons hab _ ih => simp only [keys, List.map_cons] at ih ⊢; rw [ih, hab.1]

theorem resourcesCopied_mapGet_eq {registry : List (String × Option Resource)}
    {rs : List (String × SimpleResource)} (h : ResourcesCopied registry rs)
    (hnd : (keys registry).Nodup) (k : String) (r : Option Resource)
    (hmem : (k, r) ∈ registry) :
    ∃ out, copyResource r = .ok out ∧ mapGet rs k = some out := by
  induction h with
  | nil => cases hmem
  | cons hab hrest ih =>
    rename_i a b l l'
    simp only [keys, List.map_cons, List.nodup_cons] at hnd
    rw [List.mem_cons] at hmem
    rcases hmem with hmem | hmem
    · subst hmem
      refine ⟨b.2, hab.2, ?_⟩
      obtain ⟨bk, bv⟩ := b
      have : bk = k := hab.1.symm
      simp [mapGet, this]
    · obtain ⟨out, hout, hget⟩ := ih hnd.2 hmem
      refine ⟨out, hout, ?_⟩
      obtain ⟨bk, bv⟩ := b
      have hne : ¬ bk = k := by
        intro e
        apply hnd.1
        have : a.1 = k := hab.1.trans e
        rw [this]
        exact List.mem_map_of_mem Prod.fst hmem
      simp only [mapGet, hne, if_false]
      exact hget

theorem exportAll_of_complete (env : Env) (st : Export)
    (h : exportLoop env env.resourcesMap exportStart = (st, none)) :
    (exportAll env).2 = none ∧
      (exportAll env).1.getLast? = some (.stdout (countMessage env.resourcesMap.length)) := by
  have hc := (exportLoop_complete env _ _ _ h).1
  have hcount : st.count = env.resourcesMap.length := by
    rw [hc]; simp [exportStart]
  unfold exportAll
  rw [h]
  cases hm : marshalIndent st.simpleResourceMap <;> simp [hm, hcount]

theorem checkDirectory_of_not_dir (env : Env) (dir : String) (h : env.stat dir ≠ .info true) :
    ∃ p, checkDirectory env dir = some p := by
  unfold checkDirectory
  cases hs : env.stat dir with
  | notExist => exact ⟨_, rfl⟩
  | failed err => exact ⟨_, rfl⟩
  | info isDir =>
    cases isDir with
    | true => exact absurd hs h
    | false => exact ⟨_, rfl⟩

theorem usage_aborts (args : List String) :
    (usage args).aborted = true ∧ ∀ e ∈ (usage args).events, e.touchesFile = false := by
  cases args with
  | nil => exact ⟨rfl, fun e he => by cases he⟩
  | cons a rest =>
    refine ⟨rfl, fun e he => ?_⟩
    simp only [usage, List.mem_singleton] at he
    subst he
    rfl

/-- When lines 85-103 pass, the run is the two creations, the export and the closing
that was deferred, and it ends by the panic of the closing, else by that of the
export, else by returning. -/
theorem main_of_opens (env : Env) (h : env.opens = true) :
    ∃ schemaPath namesPath, (main env).events =
        [.create schemaPath true, .create namesPath true] ++ (exportAll env).1 ++
          (deferredClose env).1 ∧
      (main env).result = (match (deferredClose env).2, (exportAll env).2 with
        | some p, _ => .error p
        | none, some p => .error p
        | none, none => .ok ()) := by
  unfold Env.opens at h
  split at h
  · rename_i a0 d1 d2 rest hargs
    simp only [Bool.and_eq_true, Option.isNone_iff_eq_none] at h
    obtain ⟨⟨⟨h1, h2⟩, h3⟩, h4⟩ := h
    have hlen : ¬ env.args.length < 3 := by rw [hargs]; simp
    have hd1 : env.args.get ⟨1, by omega⟩ = d1 := by simp [hargs]
    have hd2 : env.args.get ⟨2, by omega⟩ = d2 := by simp [hargs]
    refine ⟨env.pathJoin d1 "terraform-aws-schema.json",
      env.pathJoin d2 "terraform-aws-resource-names.txt", ?_, ?_⟩
    · unfold main
      simp only [hlen, dite_false, hd1, hd2, h1, h2, h3, h4]
    · unfold main
      simp only [hlen, dite_false, hd1, hd2, h1, h2, h3, h4]
  · cases h

theorem marshalElem_keys (e : SimpleIface) (members : List (String × Json))
    (h : marshalElem e = .ok members) :
    (e = .nil → keys members = []) ∧ (e ≠ .nil → keys members = ["Elem"]) := by
  cases e with
  | nil =>
    rw [marshalElem] at h
    injection h with h
    subst h
    exact ⟨fun _ => rfl, fun hne => absurd rfl hne⟩
  | resource r =>
    rw [marshalElem] at h
    cases hr : marshalSimpleResource r with
    | error err => rw [hr] at h; cases h
    | ok j =>
      rw [hr] at h
      injection h with h
      subst h
      exact ⟨fun he => (by cases he), fun _ => rfl⟩
  | schema s =>
    rw [marshalElem] at h
    cases hs : marshalSimpleSchema s with
    | error err => rw [hs] at h; cases h
    | ok j =>
      rw [hs] at h
      injection h with h
      subst h
      exact ⟨fun he => (by cases he), fun _ => rfl⟩

/-! ## The claims about the export -/

/-- C6: for a registry that is a Go map of `N` resource definitions without nil
pointers, the export loop ends with an output mapping that has exactly the
registry's names as keys, each mapped to `copyResource` of its definition, with
every name handed to the names file as one line, in iteration order, and with the
count `N`, which is the count reported at the end; the number of keys, of lines
and the count agree.  For the empty registry the mapping encodes as the empty
JSON object, no line is written and the count is 0. -/
theorem exportLoop_outputs_consistent (env : Env)
    (hnd : (keys env.resourcesMap).Nodup)
    (hnf : ∀ e ∈ env.resourcesMap, resourcePtrNullFree e.2 = true) :
    ∃ st, exportLoop env env.resourcesMap exportStart = (st, none) ∧
      keys st.simpleResourceMap = keys env.resourcesMap ∧
      (keys st.simpleResourceMap).Nodup ∧
      (∀ k r, (k, r) ∈ env.resourcesMap →
        ∃ out, copyResource r = .ok out ∧ mapGet st.simpleResourceMap k = some out) ∧
      namesWritten st.events = (keys env.resourcesMap).map (fun k => k ++ "\n") ∧
      st.count = env.resourcesMap.length ∧
      (keys st.simpleResourceMap).length = st.count ∧
      (namesWritten st.events).length = st.count ∧
      (exportAll env).2 = none ∧
      (exportAll env).1.getLast? = some (.stdout (countMessage env.resourcesMap.length)) ∧
      (env.resourcesMap = [] →
        marshalIndent st.simpleResourceMap = .ok (.obj []) ∧ namesWritten st.events = [] ∧
          st.count = 0) := by
  obtain ⟨st, hst⟩ := exportLoop_of_nullFree env env.resourcesMap exportStart hnf
  obtain ⟨rs, hrs, hcop⟩ := exportLoop_map env _ _ st hnd (by simp [exportStart, keys]) hst
  have hmap : st.simpleResourceMap = rs := by rw [hrs]; rfl
  obtain ⟨hcount, hevents⟩ := exportLoop_complete env _ _ st hst
  have hcount' : st.count = env.resourcesMap.length := by rw [hcount]; simp [exportStart]
  have hkeys : keys st.simpleResourceMap = keys env.resourcesMap := by
    rw [hmap]; exact resourcesCopied_keys_eq hcop
  have hnames : namesWritten st.events = (keys env.resourcesMap).map (fun k => k ++ "\n") := by
    rw [hevents, namesWritten_append, namesWritten_writeEvents]
    rfl
  have hall := exportAll_of_complete env st hst
  refine ⟨st, hst, hkeys, hkeys ▸ hnd, ?_, hnames, hcount', ?_, ?_, hall.1, hall.2, ?_⟩
  · intro k r hmem
    rw [hmap]
    exact resourcesCopied_mapGet_eq hcop hnd k r hmem
  · rw [hkeys, hcount']; simp [keys]
  · rw [hnames, hcount']; simp [keys]
  · intro hempty
    rw [hempty] at hkeys hnames hcount'
    have hnil : st.simpleResourceMap = [] := by
      cases hm : st.simpleResourceMap with
      | nil => rfl
      | cons a l => rw [hm] at hkeys; cases hkeys
    rw [hnil]
    exact ⟨rfl, hnames, hcount'⟩

theorem exportLoop_outputs_consistent_witness :
    ∃ st, exportLoop (sampleEnv sampleRegistry) sampleRegistry exportStart = (st, none) ∧
      keys st.simpleResourceMap = ["aws_x"] ∧ namesWritten st.events = ["aws_x\n"] ∧
      st.count = 1 := by
  obtain ⟨st, h1, h2, _, _, h5, h6, _⟩ :=
    exportLoop_outputs_consistent (sampleEnv sampleRegistry) (by decide)
      (by intro e he; simp only [sampleEnv, sampleRegistry, List.mem_singleton] at he
          subst he; rfl)
  exact ⟨st, h1, h2, h5, h6⟩

/-- C7, as stated, fails: a field whose declared default is `false`, a zero
value, is encoded with the member `Default`. -/
theorem default_false_is_encoded :
    marshalSimpleSchema sampleDefaultFalse =
      .ok (.obj [("Type", .num 1), ("ConfigMode", .num 0), ("Default", .bool false)]) ∧
    sampleDefaultFalse.Default = some (.bool false) ∧
    (GoValue.bool false).isZero = true ∧
    "Default" ∈ (Json.obj [("Type", .num 1), ("ConfigMode", .num 0),
      ("Default", .bool false)]).memberNames := by
  refine ⟨rfl, rfl, rfl, ?_⟩
  simp [Json.memberNames, keys]

/-- C7, amended: the JSON object of a simplified field schema always has the
members `Type` and `ConfigMode`; it has `Optional`, `Required`, `Computed`
exactly when that flag is true, `InputDefault` exactly when the string is not
empty, `Elem` exactly when the element is not nil, and `Default` exactly when
the default is not nil, a default that is a zero value such as `false` being
encoded too; it has no other member. -/
theorem marshalSimpleSchema_members (s : SimpleSchema) (j : Json)
    (h : marshalSimpleSchema s = .ok j) :
    "Type" ∈ j.memberNames ∧ "ConfigMode" ∈ j.memberNames ∧
    ("Optional" ∈ j.memberNames ↔ s.Optional = true) ∧
    ("Required" ∈ j.memberNames ↔ s.Required = true) ∧
    ("Computed" ∈ j.memberNames ↔ s.Computed = true) ∧
    ("InputDefault" ∈ j.memberNames ↔ s.InputDefault ≠ "") ∧
    ("Default" ∈ j.memberNames ↔ s.Default ≠ none) ∧
    ("Elem" ∈ j.memberNames ↔ s.Elem ≠ .nil) ∧
    (∀ name ∈ j.memberNames, name ∈ ["Type", "ConfigMode", "Optional", "Required", "Default",
      "InputDefault", "Computed", "Elem"]) := by
  obtain ⟨t, c, o, r, d, i, cp, e⟩ := s
  rw [marshalSimpleSchema] at h
  have hd : ∀ dflt, omitemptyValue "Default" d = Except.ok dflt →
      keys dflt = if d = none then [] else ["Default"] := by
    intro dflt hdflt
    cases d with
    | none =>
      injection hdflt with hdflt
      subst hdflt
      rfl
    | some v =>
      rw [omitemptyValue] at hdflt
      cases hv : marshalValue v with
      | error err => rw [hv] at hdflt; cases hdflt
      | ok x =>
        rw [hv] at hdflt
        injection hdflt with hdflt
        subst hdflt
        rfl
  split at h
  · cases h
  · rename_i dflt hdflt
    have hdk := hd dflt hdflt
    split at h
    · cases h
    · rename_i elem helem
      have hek := marshalElem_keys e elem helem
      injection h with h
      subst h
      simp only [Json.memberNames, keys, List.map_append, SimpleSchema.Optional,
        SimpleSchema.Required, SimpleSchema.Computed, SimpleSchema.InputDefault,
        SimpleSchema.Default, SimpleSchema.Elem]
      simp only [keys] at hdk hek
      rw [hdk]
      by_cases he : e = .nil
      · rw [hek.1 he]
        cases o <;> cases r <;> cases cp <;> by_cases hi : i = "" <;> cases d <;>
          simp [member, omitemptyBool, omitemptyString, hi, he]
      · rw [hek.2 he]
        cases o <;> cases r <;> cases cp <;> by_cases hi : i = "" <;> cases d <;>
          simp [member, omitemptyBool, omitemptyString, hi, he]

theorem marshalSimpleSchema_members_witness :
    marshalSimpleSchema sampleBare = .ok (.obj [("Type", .num 4), ("ConfigMode", .num 0)]) ∧
    ("Default" ∈ (Json.obj [("Type", .num 4), ("ConfigMode", .num 0)]).memberNames ↔
      sampleBare.Default ≠ none) :=
  ⟨rfl, (marshalSimpleSchema_members sampleBare _ rfl).2.2.2.2.2.2.1⟩

/-- C8 on a run whose every write fails: the error returned by `WriteString` and
by `Write` is dropped, the run goes on to report the count and returns. -/
theorem write_failures_are_ignored :
    (main failingWriteEnv).result = .ok () ∧
    (main failingWriteEnv).events =
      [.create "out/terraform-aws-schema.json" true,
       .create "names/terraform-aws-resource-names.txt" true,
       .stdout "Exporting terraform-aws-provider schema...\n",
       .writeString "aws_x\n" false,
       .write (.obj [("aws_x", .obj [("Schema", .obj [("name",
          .obj [("Type", .num 4), ("ConfigMode", .num 0), ("Optional", .bool true)])])])])
          false,
       .stdout "1 resources exported.\n\n",
       .close .schema true, .close .names true] := by
  exact ⟨rfl, rfl⟩

/-- C9: when fewer than two arguments are given, or the first or the second
directory argument is anything but an existing directory, `main` ends by a panic
and has touched no output file: nothing was created, truncated or written. -/
theorem main_validates_before_output (env : Env)
    (h : env.args.length < 3 ∨
      (∃ dir, env.args[1]? = some dir ∧ env.stat dir ≠ .info true) ∨
      (∃ dir, env.args[2]? = some dir ∧ env.stat dir ≠ .info true)) :
    (main env).aborted = true ∧ ∀ e ∈ (main env).events, e.touchesFile = false := by
  by_cases hlen : env.args.length < 3
  · unfold main
    simp only [hlen, dite_true]
    exact usage_aborts env.args
  · have hbad : (∃ p, checkDirectory env (env.args.get ⟨1, by omega⟩) = some p) ∨
        (∃ p, checkDirectory env (env.args.get ⟨2, by omega⟩) = some p) := by
      rcases h with h | ⟨dir, hd, hs⟩ | ⟨dir, hd, hs⟩
      · exact absurd h hlen
      · left
        rw [List.getElem?_eq_getElem (by omega)] at hd
        injection hd with hd
        rw [List.get_eq_getElem, hd]
        exact checkDirectory_of_not_dir env dir hs
      · right
        rw [List.getElem?_eq_getElem (by omega)] at hd
        injection hd with hd
        rw [List.get_eq_getElem, hd]
        exact checkDirectory_of_not_dir env dir hs
    unfold main
    simp only [hlen, dite_false]
    cases h1 : checkDirectory env (env.args.get ⟨1, by omega⟩) with
    | some p => exact ⟨rfl, fun e he => by cases he⟩
    | none =>
      rcases hbad with ⟨p, hp⟩ | ⟨p, hp⟩
      · rw [h1] at hp; cases hp
      · simp only [hp]
        exact ⟨rfl, fun e he => by cases he⟩

theorem main_validates_before_output_witness :
    (main missingDirEnv).aborted = true ∧
    ∀ e ∈ (main missingDirEnv).events, e.touchesFile = false :=
  main_validates_before_output missingDirEnv
    (Or.inr (Or.inr ⟨"nowhere", rfl, by decide⟩))

/-- C10: in a run that reaches the export and whose loop ends, a failure of the
JSON encoding is printed and the run goes on: no event writes to the schema file,
every name was handed to the names file before, the count printed last is the
number of registry entries, and the run ends as its deferred closing does. -/
theorem marshal_failure_is_not_fatal (env : Env) (st : Export) (err : String)
    (hopen : env.opens = true)
    (hloop : exportLoop env env.resourcesMap exportStart = (st, none))
    (hjson : marshalIndent st.simpleResourceMap = .error err) :
    exportAll env =
      (exportStart.events ++ writeEvents env 0 (keys env.resourcesMap) ++
        [.stdout ("JSON error: " ++ err ++ "\n"),
         .stdout (countMessage env.resourcesMap.length)], none) ∧
    (∀ e ∈ (main env).events, e.isWrite = false) ∧
    namesWritten (main env).events = (keys env.resourcesMap).map (fun k => k ++ "\n") ∧
    ((deferredClose env).2 = none → (main env).result = .ok ()) := by
  obtain ⟨hcount, hevents⟩ := exportLoop_complete env _ _ st hloop
  have hcount' : st.count = env.resourcesMap.length := by rw [hcount]; simp [exportStart]
  have hall : exportAll env =
      (exportStart.events ++ writeEvents env 0 (keys env.resourcesMap) ++
        [.stdout ("JSON error: " ++ err ++ "\n"),
         .stdout (countMessage env.resourcesMap.length)], none) := by
    unfold exportAll
    rw [hloop]
    simp only [hjson, hevents, hcount']
    rfl
  obtain ⟨schemaPath, namesPath, hev, hres⟩ := main_of_opens env hopen
  have hclose : ∀ e ∈ (deferredClose env).1, e.isWrite = false ∧ namesWritten [e] = [] := by
    intro e he
    unfold deferredClose at he
    split at he
    · simp only [List.mem_singleton] at he; subst he; exact ⟨rfl, rfl⟩
    · split at he
      · simp only [List.mem_cons, List.mem_singleton, List.not_mem_nil, or_false] at he
        rcases he with rfl | rfl <;> exact ⟨rfl, rfl⟩
      · simp only [List.mem_cons, List.mem_singleton, List.not_mem_nil, or_false] at he
        rcases he with rfl | rfl <;> exact ⟨rfl, rfl⟩
  have hclose_names : namesWritten (deferredClose env).1 = [] := by
    unfold deferredClose
    split
    · rfl
    · split <;> rfl
  refine ⟨hall, ?_, ?_, ?_⟩
  · intro e he
    rw [hev, hall] at he
    simp only [List.mem_append, List.mem_cons, List.mem_singleton, List.not_mem_nil,
      or_false, exportStart] at he
    rcases he with ((rfl | rfl) | ((rfl | he) | (rfl | rfl))) | he
    · rfl
    · rfl
    · rfl
    · exact isWrite_writeEvents env _ _ e he
    · rfl
    · rfl
    · exact (hclose e he).1
  · rw [hev, hall]
    simp only [namesWritten_append, namesWritten_writeEvents, hclose_names]
    simp [namesWritten, exportStart]
  · intro hc
    rw [hres, hall, hc]

theorem marshal_failure_is_not_fatal_witness :
    (main (sampleEnv unencodableRegistry)).result = .ok () ∧
    namesWritten (main (sampleEnv unencodableRegistry)).events = ["aws_y\n"] ∧
    ∀ e ∈ (main (sampleEnv unencodableRegistry)).events, e.isWrite = false :=
  have h := marshal_failure_is_not_fatal (sampleEnv unencodableRegistry)
    (exportLoop (sampleEnv unencodableRegistry) unencodableRegistry exportStart).1
    "json: unsupported type: func()" rfl rfl rfl
  ⟨h.2.2.2 rfl, h.2.2.1, h.2.1⟩

end SchemaLoader
